import Mathlib

/-!
Shallow embedding of the team-genome analysis pipeline
(`buildTeamAggregate`, `calculateDelta`, `generateAlerts`,
`formatProficiency`, `formatFluency`) from
`src/app/api/genome/[username]/route.ts`, together with proofs of the
behavioural properties stated for it.

JavaScript numbers are modelled as rationals; `Math.round` becomes
`jsRound` (floor of x + 1/2, which is how `Math.round` behaves on the
nonnegative values arising here).  JavaScript `Map`s and plain objects
used as dictionaries are modelled as insertion-ordered association
lists, matching `Map` iteration-order semantics.
-/

/-!
The Batteries definitions of the rational operations are `@[irreducible]`,
which blocks `decide`-style evaluation of the embedded pipeline on concrete
inputs; make them semireducible again (this does not change any value).
-/

unseal Rat.add Rat.mul Rat.inv Rat.sub

/-- JavaScript `Math.round` on a rational (round half toward plus infinity). -/
def jsRound (q : ℚ) : ℤ := ⌊q + 1/2⌋

/-- `Math.round((count / total) * 100 * 100) / 100`: a percentage rounded to
two decimal places, as computed by the source. -/
def roundPct2 (count total : ℕ) : ℚ :=
  (jsRound ((count : ℚ) / (total : ℚ) * 100 * 100) : ℚ) / 100

/-- JavaScript `x || "unknown"` on an optional string field (both a missing
field and the empty string are falsy). -/
def orUnknown (o : Option String) : String :=
  match o with
  | none => "unknown"
  | some s => if s = "" then "unknown" else s

/-- One entry of a genome `strengths` array. -/
structure Strength where
  name : String
  proficiency : Option String
deriving DecidableEq, Repr

/-- One entry of a genome `languages` array. -/
structure LanguageItem where
  code : String
  language : String
  fluency : Option String
deriving DecidableEq, Repr

/-- A genome response; `none` models an absent or non-array field. -/
structure GenomeResponse where
  strengths : Option (List Strength)
  languages : Option (List LanguageItem)
deriving DecidableEq, Repr

/-- Lookup in an insertion-ordered association list (JS `Map.get`). -/
def alistGet {α : Type} (m : List (String × α)) (k : String) : Option α :=
  match m with
  | [] => none
  | (k₁, v) :: rest => if k₁ = k then some v else alistGet rest k

/-- The JS idiom `if (!m.has(k)) m.set(k, v0); mutate m.get(k) by f`:
an existing entry is updated in place, a new entry is appended at the end,
preserving `Map` insertion order. -/
def alistUpd {α : Type} (m : List (String × α)) (k : String) (v0 : α) (f : α → α) :
    List (String × α) :=
  match m with
  | [] => [(k, f v0)]
  | (k₁, v) :: rest =>
      if k₁ = k then (k₁, f v) :: rest else (k₁, v) :: alistUpd rest k v0 f

/-- Accumulated per-skill data inside `buildTeamAggregate`. -/
structure SkillData where
  count : ℕ
  proficiencyLevels : List (String × ℕ)
deriving DecidableEq, Repr

/-- Accumulated per-language data inside `buildTeamAggregate`. -/
structure LangData where
  count : ℕ
  fluencyLevels : List (String × ℕ)
deriving DecidableEq, Repr

/-- Processing of one strength inside the `buildTeamAggregate` loop. -/
def bumpStrength (m : List (String × SkillData)) (s : Strength) :
    List (String × SkillData) :=
  alistUpd m s.name ⟨0, []⟩ fun d =>
    ⟨d.count + 1, alistUpd d.proficiencyLevels (orUnknown s.proficiency) 0 (· + 1)⟩

/-- Processing of one language inside the `buildTeamAggregate` loop. -/
def bumpLanguage (m : List (String × LangData)) (l : LanguageItem) :
    List (String × LangData) :=
  alistUpd m l.code ⟨0, []⟩ fun d =>
    ⟨d.count + 1, alistUpd d.fluencyLevels (orUnknown l.fluency) 0 (· + 1)⟩

/-- The skill map built by the main loop of `buildTeamAggregate`. -/
def buildSkillMap (genomes : List GenomeResponse) : List (String × SkillData) :=
  genomes.foldl (fun m g => (g.strengths.getD []).foldl bumpStrength m) []

/-- The language map built by the main loop of `buildTeamAggregate`. -/
def buildLangMap (genomes : List GenomeResponse) : List (String × LangData) :=
  genomes.foldl (fun m g => (g.languages.getD []).foldl bumpLanguage m) []

/-- `SkillFrequency` from `types/api`. -/
structure SkillFrequency where
  skillName : String
  count : ℕ
  percentage : ℚ
  proficiencyLevels : List (String × ℕ)
deriving DecidableEq, Repr

/-- The per-language record stored in `TeamAggregate.languages`. -/
structure LangFrequency where
  count : ℕ
  percentage : ℚ
  fluencyLevels : List (String × ℕ)
deriving DecidableEq, Repr

/-- `TeamAggregate` from `types/api`. -/
structure TeamAggregate where
  totalMembers : ℕ
  skills : List SkillFrequency
  languages : List (String × LangFrequency)
deriving DecidableEq, Repr

/-- One step of an insertion sort that mirrors a stable JS
`Array.prototype.sort`: `le a b` means the comparator keeps `b` before the
newly arriving `a`, so `a` is placed after every element it ties with. -/
def insertAfterLe {α : Type} (le : α → α → Bool) (a : α) : List α → List α
  | [] => [a]
  | b :: l => if le a b then b :: insertAfterLe le a l else a :: b :: l

/-- Stable sort (insertion sort processing elements in input order). -/
def stableSort {α : Type} (le : α → α → Bool) (l : List α) : List α :=
  l.foldl (fun acc a => insertAfterLe le a acc) []

/-- The unsorted `SkillFrequency` list materialised from the skill map,
in first-encounter order. -/
def unsortedSkills (genomes : List GenomeResponse) : List SkillFrequency :=
  (buildSkillMap genomes).map fun p =>
    ⟨p.1, p.2.count, roundPct2 p.2.count genomes.length, p.2.proficiencyLevels⟩

/-- `buildTeamAggregate` from `route.ts`. -/
def buildTeamAggregate (genomes : List GenomeResponse) : TeamAggregate :=
  if genomes.isEmpty then ⟨0, [], []⟩
  else
    ⟨genomes.length,
     stableSort (fun a b => decide (a.count ≤ b.count)) (unsortedSkills genomes),
     (buildLangMap genomes).map fun p =>
       (p.1, ⟨p.2.count, roundPct2 p.2.count genomes.length, p.2.fluencyLevels⟩)⟩

/-- `REDUNDANCY_THRESHOLD` (0.8). -/
def REDUNDANCY_THRESHOLD : ℚ := 8/10

/-- `VALUE_ADD_THRESHOLD` (0.2). -/
def VALUE_ADD_THRESHOLD : ℚ := 2/10

/-- `SkillDelta` from `types/api`. -/
structure SkillDelta where
  skillName : String
  candidateProficiency : String
  teamCoverage : ℚ
  teamProficiencyDistribution : List (String × ℚ)
  isRedundant : Bool
  isValueAdd : Bool
deriving DecidableEq, Repr

/-- `LanguageDelta` from `types/api`. -/
structure LanguageDelta where
  languageCode : String
  languageName : String
  candidateFluency : String
  teamCoverage : ℚ
  isValueAdd : Bool
deriving DecidableEq, Repr

/-- The `summary` record of a `DeltaAnalysis`. -/
structure DeltaSummary where
  totalRedundantSkills : ℕ
  totalValueAddSkills : ℕ
  totalValueAddLanguages : ℕ
  totalTeamMembers : ℕ
deriving DecidableEq, Repr

/-- `DeltaAnalysis` from `types/api`. -/
structure DeltaAnalysis where
  redundantSkills : List SkillDelta
  valueAddSkills : List SkillDelta
  valueAddLanguages : List LanguageDelta
  summary : DeltaSummary
deriving DecidableEq, Repr

/-- JavaScript `String.prototype.toLowerCase`, modelled character by
character (kernel-evaluable, unlike `String.toLower`). -/
def jsToLower (s : String) : String := ⟨s.data.map Char.toLower⟩

/-- The `teamSkillMap` lookup of `calculateDelta`: the map is built by
inserting every team skill under its lower-cased name, later entries
overwriting earlier ones, so a get returns the last matching entry. -/
def teamSkillLookup (skills : List SkillFrequency) (key : String) :
    Option SkillFrequency :=
  skills.foldl (fun acc sk => if jsToLower sk.skillName = key then some sk else acc) none

/-- The body of the per-strength loop of `calculateDelta`: builds the
`SkillDelta` for one candidate strength. -/
def mkSkillDelta (t : TeamAggregate) (s : Strength) : SkillDelta :=
  let teamSkill := teamSkillLookup t.skills (jsToLower s.name)
  let teamCoverage : ℚ :=
    match teamSkill with
    | some sk => sk.percentage / 100
    | none => 0
  let dist : List (String × ℚ) :=
    match teamSkill with
    | some sk => sk.proficiencyLevels.map fun p => (p.1, roundPct2 p.2 t.totalMembers)
    | none => []
  ⟨s.name, orUnknown s.proficiency, teamCoverage, dist,
   decide (REDUNDANCY_THRESHOLD < teamCoverage),
   decide (teamCoverage < VALUE_ADD_THRESHOLD)⟩

/-- The team coverage used for one candidate language in `calculateDelta`
(exact, case-sensitive lookup by language code). -/
def langCoverage (t : TeamAggregate) (code : String) : ℚ :=
  match alistGet t.languages code with
  | some lf => lf.percentage / 100
  | none => 0

/-- `calculateDelta` from `route.ts`. -/
def calculateDelta (cand : GenomeResponse) (t : TeamAggregate) : DeltaAnalysis :=
  let deltas := (cand.strengths.getD []).map (mkSkillDelta t)
  let redundant := deltas.filter (·.isRedundant)
  let valueAdd := deltas.filter fun d => !d.isRedundant && d.isValueAdd
  let valueAddLanguages := (cand.languages.getD []).filterMap fun l =>
    let cov := langCoverage t l.code
    if cov < VALUE_ADD_THRESHOLD then
      some ⟨l.code, l.language, orUnknown l.fluency, cov, true⟩
    else none
  let redundantSorted :=
    stableSort (fun a b => decide (a.teamCoverage ≤ b.teamCoverage)) redundant
  let valueAddSorted :=
    stableSort (fun a b => decide (b.teamCoverage ≤ a.teamCoverage)) valueAdd
  ⟨redundantSorted, valueAddSorted, valueAddLanguages,
   ⟨redundantSorted.length, valueAddSorted.length, valueAddLanguages.length,
    t.totalMembers⟩⟩

/-- `formatProficiency` from `route.ts`. -/
def formatProficiency (proficiency : String) : String :=
  if proficiency = "no-experience-interested" then "No Experience (Interested)"
  else if proficiency = "novice" then "Novice"
  else if proficiency = "proficient" then "Proficient"
  else if proficiency = "expert" then "Expert"
  else if proficiency = "master" then "Master"
  else proficiency

/-- `formatFluency` from `route.ts`. -/
def formatFluency (fluency : String) : String :=
  if fluency = "basic" then "Basic"
  else if fluency = "conversational" then "Conversational"
  else if fluency = "fully-fluent" then "Fully Fluent"
  else if fluency = "native-or-bilingual" then "Native/Bilingual"
  else fluency

/-- Alert severity. -/
inductive Severity
  | high
  | medium
  | low
deriving DecidableEq, Repr

/-- The severity cascade of `generateAlerts`. -/
def severityFor (cov : ℚ) : Severity :=
  if 9/10 ≤ cov then Severity.high
  else if 85/100 ≤ cov then Severity.medium
  else Severity.low

/-- `RedundancyAlert` from `types/api`. -/
structure RedundancyAlert where
  type : String
  severity : Severity
  message : String
  skills : List SkillDelta
  count : ℤ
deriving DecidableEq, Repr

/-- `ValueAddAlert` from `types/api`. -/
structure ValueAddAlert where
  type : String
  message : String
  skills : List SkillDelta
  languages : List LanguageDelta
deriving DecidableEq, Repr

/-- The result record of `generateAlerts`. -/
structure Alerts where
  redundancyAlerts : List RedundancyAlert
  valueAddAlert : Option ValueAddAlert
deriving DecidableEq, Repr

/-- The grouping key of `generateAlerts`:
`skill.skillName.toLowerCase() + "_" + skill.candidateProficiency`. -/
def groupKey (s : SkillDelta) : String :=
  jsToLower s.skillName ++ "_" ++ s.candidateProficiency

/-- First-seen deduplication, the key order of a JS `Map` built by pushes. -/
def dedupKeys (l : List String) : List String :=
  l.foldl (fun acc k => if acc.contains k then acc else acc ++ [k]) []

/-- A single-quote character, used by the value-add message. -/
def sglq : String := (Char.ofNat 39).toString

/-- The redundancy alert built from one group (`skill` is `skills[0]`). -/
def mkRedundancyAlert (totalMembers : ℕ) (skill : SkillDelta)
    (group : List SkillDelta) : RedundancyAlert :=
  let severity := severityFor skill.teamCoverage
  let proficiencyPercentage : ℚ :=
    (alistGet skill.teamProficiencyDistribution skill.candidateProficiency).getD 0
  let exactMatchCount : ℤ :=
    jsRound (proficiencyPercentage / 100 * (totalMembers : ℚ))
  let message :=
    if 0 < exactMatchCount then
      "Warning: You already have " ++ toString exactMatchCount ++ " team member" ++
        (if 1 < exactMatchCount then "s" else "") ++ " with " ++ skill.skillName ++
        " at " ++ formatProficiency skill.candidateProficiency ++ " proficiency level."
    else
      "Warning: " ++ toString (jsRound (skill.teamCoverage * 100)) ++
        "% of your team already has " ++ skill.skillName ++ "."
  ⟨"redundancy", severity, message, group,
   if exactMatchCount = 0 then jsRound (skill.teamCoverage * (totalMembers : ℚ))
   else exactMatchCount⟩

/-- The clause list of the value-add message: a skills clause built from the
first 3 of the exposed (top 10) skill names, then a languages clause. -/
def valueAddAdditions (valueAddSkills : List SkillDelta)
    (valueAddLanguages : List LanguageDelta) : List String :=
  let skillNames := (valueAddSkills.take 10).map (·.skillName)
  let languageNames := valueAddLanguages.map (·.languageName)
  (if skillNames.isEmpty then [] else
    ["skills " ++ sglq ++ String.intercalate (sglq ++ ", " ++ sglq) (skillNames.take 3) ++
      (if 3 < skillNames.length then
        sglq ++ " and " ++ toString (skillNames.length - 3) ++ " more"
      else sglq)]) ++
  (if languageNames.isEmpty then [] else
    ["languages " ++ sglq ++ String.intercalate (sglq ++ ", " ++ sglq) languageNames ++ sglq])

/-- The closing word choice of the value-add message: the source tests the
FULL `valueAddSkills` list for a zero-coverage entry. -/
def lacksWord (valueAddSkills : List SkillDelta) : String :=
  if valueAddSkills.any (fun s => decide (s.teamCoverage = 0)) then "completely lacks"
  else "has limited coverage in"

/-- The value-add alert built by `generateAlerts` from the value-add skill and
language lists (the body of its non-empty branch). -/
def mkValueAddAlert (valueAddSkills : List SkillDelta)
    (valueAddLanguages : List LanguageDelta) : ValueAddAlert :=
  let additions := valueAddAdditions valueAddSkills valueAddLanguages
  let message := "Strong Hire: " ++
    (if additions.isEmpty then "" else
      "This candidate brings " ++ String.intercalate " and " additions ++
        "—skills your current team " ++ lacksWord valueAddSkills ++ ".")
  ⟨"value-add", message, valueAddSkills.take 10, valueAddLanguages⟩

/-- `generateAlerts` from `route.ts`. -/
def generateAlerts (delta : DeltaAnalysis) : Alerts :=
  let totalMembers :=
    if delta.summary.totalTeamMembers = 0 then 1 else delta.summary.totalTeamMembers
  let keys := dedupKeys (delta.redundantSkills.map groupKey)
  let redundancyAlerts := keys.filterMap fun k =>
    match delta.redundantSkills.filter (fun s => groupKey s = k) with
    | [] => none
    | skill :: rest => some (mkRedundancyAlert totalMembers skill (skill :: rest))
  let valueAddAlert : Option ValueAddAlert :=
    if delta.valueAddSkills.isEmpty && delta.valueAddLanguages.isEmpty then none
    else some (mkValueAddAlert delta.valueAddSkills delta.valueAddLanguages)
  ⟨redundancyAlerts, valueAddAlert⟩

/-! ### Derived measures and concrete inputs used by the verification -/

/-- The count stored in a skill map under `name` (0 when absent). -/
def skillCountOf (m : List (String × SkillData)) (name : String) : ℕ :=
  match alistGet m name with
  | some d => d.count
  | none => 0

/-- Number of skill observations with exactly this name in one strengths list. -/
def strengthOcc (name : String) (l : List Strength) : ℕ :=
  (l.filter fun s => s.name = name).length

/-- Total number of skill observations with exactly this name across a
collection of genomes. -/
def genomeOcc (name : String) (gs : List GenomeResponse) : ℕ :=
  (gs.map fun g => strengthOcc name (g.strengths.getD [])).sum

/-- All skill observation names of a collection, in scanning order. -/
def allSkillNames (gs : List GenomeResponse) : List String :=
  (gs.map fun g => (g.strengths.getD []).map Strength.name).flatten

/-- The exact-proficiency member count of a redundancy alert:
`Math.round(pct/100 * totalMembers)` where `pct` is the team percentage at
the candidate proficiency level (0 when absent). -/
def exactMatchCount (totalMembers : ℕ) (s : SkillDelta) : ℤ :=
  jsRound ((alistGet s.teamProficiencyDistribution s.candidateProficiency).getD 0
    / 100 * (totalMembers : ℚ))

/-- A single profile that lists the same skill name twice. -/
def dupProfiles : List GenomeResponse :=
  [⟨some [⟨"A", none⟩, ⟨"A", none⟩], none⟩]

/-- A team in which every member has TypeScript. -/
def tsTeam : List GenomeResponse :=
  List.replicate 5 ⟨some [⟨"TypeScript", some "expert"⟩], none⟩

/-- A candidate who also has TypeScript. -/
def tsCand : GenomeResponse := ⟨some [⟨"TypeScript", some "expert"⟩], none⟩

/-- A one-member team knowing Python and English. -/
def pyTeam : List GenomeResponse :=
  [⟨some [⟨"Python", some "expert"⟩], some [⟨"en", "English", some "fully-fluent"⟩]⟩]

/-- Ten team members: nine know Go at expert level, one only Java. -/
def goTeam : List GenomeResponse :=
  List.replicate 9 ⟨some [⟨"Go", some "expert"⟩], none⟩ ++
    [⟨some [⟨"Java", some "novice"⟩], none⟩]

/-- A candidate with Go at expert level. -/
def goCand : GenomeResponse := ⟨some [⟨"Go", some "expert"⟩], none⟩

/-- Five team members, none of whom has Rust. -/
def rustTeam : List GenomeResponse :=
  List.replicate 5 ⟨some [⟨"Java", some "expert"⟩], none⟩

/-- A candidate with Rust. -/
def rustCand : GenomeResponse := ⟨some [⟨"Rust", some "expert"⟩], none⟩

/-- A one-member team whose skill names make the underscore-joined
grouping key collide: the skills `a` and `a_b`. -/
def confTeam : List GenomeResponse :=
  [⟨some [⟨"a", some "x"⟩, ⟨"a_b", some "x"⟩], none⟩]

/-- A candidate whose two strengths produce the same composite key
`a_b_c` from different (name, proficiency) pairs. -/
def confCand : GenomeResponse :=
  ⟨some [⟨"a", some "b_c"⟩, ⟨"a_b", some "c"⟩], none⟩

/-- A delta analysis with one redundant skill at coverage 0.87. -/
def c7Delta : DeltaAnalysis :=
  ⟨[⟨"Kotlin", "expert", 87/100, [], true, false⟩], [], [], ⟨1, 0, 0, 4⟩⟩

/-- A value-add skill delta at a given coverage, for list-truncation tests. -/
def vaSkill (n : String) (cov : ℚ) : SkillDelta := ⟨n, "novice", cov, [], false, true⟩

/-- A delta analysis with eleven value-add skills. -/
def c8Delta : DeltaAnalysis :=
  ⟨[], [vaSkill "s1" 0, vaSkill "s2" (1/100), vaSkill "s3" (2/100), vaSkill "s4" (3/100),
    vaSkill "s5" (4/100), vaSkill "s6" (5/100), vaSkill "s7" (6/100), vaSkill "s8" (7/100),
    vaSkill "s9" (8/100), vaSkill "s10" (9/100), vaSkill "s11" (1/10)], [],
   ⟨0, 11, 0, 7⟩⟩

/-- A delta analysis with one skill redundant at two proficiency levels. -/
def c6Delta : DeltaAnalysis :=
  ⟨[⟨"R", "expert", 1, [], true, false⟩, ⟨"R", "novice", 1, [], true, false⟩],
   [], [], ⟨2, 0, 0, 1⟩⟩

/-- A candidate with one skill and one language, for the empty-team claim. -/
def c10Cand : GenomeResponse :=
  ⟨some [⟨"Haskell", some "expert"⟩], some [⟨"fr", "French", some "basic"⟩]⟩

/-! ### Association-list lemmas -/

theorem alistGet_upd_self {α : Type} (m : List (String × α)) (k : String) (v0 : α)
    (f : α → α) : alistGet (alistUpd m k v0 f) k = some (f ((alistGet m k).getD v0)) := by
  induction m with
  | nil => simp [alistGet, alistUpd]
  | cons p rest ih =>
      obtain ⟨k₁, v⟩ := p
      by_cases h : k₁ = k
      · subst h
        simp [alistGet, alistUpd]
      · simp [alistGet, alistUpd, h, ih]

theorem alistGet_upd_ne {α : Type} (m : List (String × α)) (k k₂ : String) (v0 : α)
    (f : α → α) (h : k₂ ≠ k) : alistGet (alistUpd m k v0 f) k₂ = alistGet m k₂ := by
  have hnk : k ≠ k₂ := Ne.symm h
  induction m with
  | nil => simp [alistGet, alistUpd, hnk]
  | cons p rest ih =>
      obtain ⟨k₁, v⟩ := p
      by_cases hk : k₁ = k
      · subst hk
        simp [alistGet, alistUpd, hnk]
      · simp only [alistUpd, if_neg hk, alistGet, ih]

theorem alistUpd_keys {α : Type} (m : List (String × α)) (k : String) (v0 : α)
    (f : α → α) :
    (alistUpd m k v0 f).map Prod.fst =
      if (m.map Prod.fst).contains k then m.map Prod.fst else m.map Prod.fst ++ [k] := by
  induction m with
  | nil => simp [alistUpd]
  | cons p rest ih =>
      obtain ⟨k₁, v⟩ := p
      by_cases h : k₁ = k
      · subst h
        simp [alistUpd, List.contains_cons]
      · have hbeq : (k == k₁) = false := beq_false_of_ne (Ne.symm h)
        simp only [alistUpd, if_neg h, List.map_cons, List.contains_cons, hbeq,
          Bool.false_or, ih]
        by_cases hc : ((rest.map Prod.fst).contains k) = true
        · rw [if_pos hc, if_pos hc]
        · rw [if_neg hc, if_neg hc, List.cons_append]

theorem alistUpd_keys_nodup {α : Type} (m : List (String × α)) (k : String) (v0 : α)
    (f : α → α) (h : (m.map Prod.fst).Nodup) :
    ((alistUpd m k v0 f).map Prod.fst).Nodup := by
  rw [alistUpd_keys]
  by_cases hc : ((m.map Prod.fst).contains k) = true
  · rw [if_pos hc]
    exact h
  · rw [if_neg hc]
    rw [List.nodup_append]
    refine ⟨h, List.nodup_singleton k, ?_⟩
    intro a ha hb
    simp only [List.mem_singleton] at hb
    subst hb
    exact (by simpa [List.elem_iff] using hc : a ∉ m.map Prod.fst) ha

theorem alistGet_of_mem_nodup {α : Type} (m : List (String × α)) (k : String) (v : α)
    (hnd : (m.map Prod.fst).Nodup) (hm : (k, v) ∈ m) : alistGet m k = some v := by
  induction m with
  | nil => simp at hm
  | cons p rest ih =>
      obtain ⟨k₁, v₁⟩ := p
      simp only [List.map_cons, List.nodup_cons] at hnd
      rcases List.mem_cons.mp hm with h | h
      · injection h with h1 h2
        subst h1
        subst h2
        simp [alistGet]
      · have hne : k₁ ≠ k := by
          intro he
          subst he
          exact hnd.1 (List.mem_map.mpr ⟨(k₁, v), h, rfl⟩)
        simp [alistGet, hne, ih hnd.2 h]

theorem alistGet_eq_none {α : Type} (m : List (String × α)) (k : String)
    (h : ∀ p ∈ m, p.1 ≠ k) : alistGet m k = none := by
  induction m with
  | nil => rfl
  | cons p rest ih =>
      obtain ⟨k₁, v₁⟩ := p
      have h1 : k₁ ≠ k := h (k₁, v₁) (List.mem_cons_self _ _)
      simp [alistGet, h1, ih fun q hq => h q (List.mem_cons_of_mem _ hq)]

/-! ### Stable-sort lemmas -/

theorem mem_insertAfterLe {α : Type} (le : α → α → Bool) (a : α) (l : List α) (x : α) :
    x ∈ insertAfterLe le a l ↔ x = a ∨ x ∈ l := by
  induction l with
  | nil => simp [insertAfterLe]
  | cons b rest ih =>
      by_cases h : le a b
      · simp only [insertAfterLe, if_pos h, List.mem_cons, ih]
        tauto
      · simp only [insertAfterLe, if_neg h, List.mem_cons]

theorem length_insertAfterLe {α : Type} (le : α → α → Bool) (a : α) (l : List α) :
    (insertAfterLe le a l).length = l.length + 1 := by
  induction l with
  | nil => rfl
  | cons b rest ih =>
      by_cases h : le a b
      · simp [insertAfterLe, if_pos h, ih]
      · simp [insertAfterLe, if_neg h]

theorem mem_stableSort {α : Type} (le : α → α → Bool) (l : List α) (x : α) :
    x ∈ stableSort le l ↔ x ∈ l := by
  have main : ∀ (l acc : List α), x ∈ l.foldl (fun acc a => insertAfterLe le a acc) acc ↔
      x ∈ acc ∨ x ∈ l := by
    intro l
    induction l with
    | nil => simp
    | cons b rest ih =>
        intro acc
        simp only [List.foldl_cons, ih, mem_insertAfterLe, List.mem_cons]
        tauto
  simpa [stableSort] using main l []

theorem length_stableSort {α : Type} (le : α → α → Bool) (l : List α) :
    (stableSort le l).length = l.length := by
  have main : ∀ (l acc : List α),
      (l.foldl (fun acc a => insertAfterLe le a acc) acc).length =
        acc.length + l.length := by
    intro l
    induction l with
    | nil => simp
    | cons b rest ih =>
        intro acc
        simp only [List.foldl_cons, ih, length_insertAfterLe, List.length_cons]
        omega
  simpa [stableSort] using main l []

theorem pairwise_insertAfterLe {α : Type} (le : α → α → Bool)
    (tot : ∀ a b, le a b = false → le b a = true)
    (htrans : ∀ a b c, le b a = true → le c b = true → le c a = true)
    (a : α) (l : List α) (h : l.Pairwise fun x y => le y x = true) :
    (insertAfterLe le a l).Pairwise fun x y => le y x = true := by
  induction l with
  | nil => simp [insertAfterLe]
  | cons b rest ih =>
      rw [List.pairwise_cons] at h
      by_cases hle : le a b
      · rw [insertAfterLe, if_pos hle, List.pairwise_cons]
        refine ⟨?_, ih h.2⟩
        intro x hx
        rcases (mem_insertAfterLe le a rest x).mp hx with rfl | hx
        · exact hle
        · exact h.1 x hx
      · rw [insertAfterLe, if_neg hle, List.pairwise_cons]
        have hba : le b a = true := tot a b (Bool.not_eq_true _ ▸ hle)
        refine ⟨?_, List.pairwise_cons.mpr h⟩
        intro x hx
        rcases List.mem_cons.mp hx with rfl | hx
        · exact hba
        · exact htrans a b x hba (h.1 x hx)

theorem pairwise_stableSort {α : Type} (le : α → α → Bool)
    (tot : ∀ a b, le a b = false → le b a = true)
    (htrans : ∀ a b c, le b a = true → le c b = true → le c a = true)
    (l : List α) : (stableSort le l).Pairwise fun x y => le y x = true := by
  have main : ∀ (l acc : List α), (acc.Pairwise fun x y => le y x = true) →
      (l.foldl (fun acc a => insertAfterLe le a acc) acc).Pairwise
        fun x y => le y x = true := by
    intro l
    induction l with
    | nil => exact fun acc h => h
    | cons b rest ih =>
        intro acc hacc
        exact ih _ (pairwise_insertAfterLe le tot htrans b acc hacc)
  exact main l [] (List.Pairwise.nil)

/-! ### Counting invariants of the skill map -/

theorem skillCountOf_bump (m : List (String × SkillData)) (s : Strength) (name : String) :
    skillCountOf (bumpStrength m s) name =
      skillCountOf m name + (if s.name = name then 1 else 0) := by
  unfold skillCountOf bumpStrength
  by_cases h : s.name = name
  · subst h
    rw [alistGet_upd_self]
    cases hg : alistGet m s.name with
    | none => simp [hg]
    | some d => simp [hg]
  · rw [alistGet_upd_ne _ _ _ _ _ fun he => h he.symm, if_neg h]
    omega

theorem skillCountOf_foldl (l : List Strength) (m : List (String × SkillData))
    (name : String) :
    skillCountOf (l.foldl bumpStrength m) name =
      skillCountOf m name + strengthOcc name l := by
  induction l generalizing m with
  | nil => simp [strengthOcc]
  | cons s rest ih =>
      rw [List.foldl_cons, ih, skillCountOf_bump]
      unfold strengthOcc
      by_cases h : s.name = name
      · simp [List.filter_cons, h]
        omega
      · simp [List.filter_cons, h]

theorem skillCountOf_buildSkillMap (gs : List GenomeResponse) (name : String) :
    skillCountOf (buildSkillMap gs) name = genomeOcc name gs := by
  have main : ∀ (gs : List GenomeResponse) (m : List (String × SkillData)),
      skillCountOf
          (gs.foldl (fun m g => (g.strengths.getD []).foldl bumpStrength m) m) name =
        skillCountOf m name + genomeOcc name gs := by
    intro gs
    induction gs with
    | nil => simp [genomeOcc]
    | cons g rest ih =>
        intro m
        rw [List.foldl_cons, ih, skillCountOf_foldl]
        simp only [genomeOcc, List.map_cons, List.sum_cons]
        omega
  have h := main gs []
  rw [buildSkillMap]
  simpa [skillCountOf, alistGet] using h

theorem buildSkillMap_keys_nodup (gs : List GenomeResponse) :
    ((buildSkillMap gs).map Prod.fst).Nodup := by
  have inner : ∀ (l : List Strength) (m : List (String × SkillData)),
      (m.map Prod.fst).Nodup → ((l.foldl bumpStrength m).map Prod.fst).Nodup := by
    intro l
    induction l with
    | nil => exact fun m h => h
    | cons s rest ih =>
        intro m h
        exact ih _ (alistUpd_keys_nodup _ _ _ _ h)
  have main : ∀ (gs : List GenomeResponse) (m : List (String × SkillData)),
      (m.map Prod.fst).Nodup →
      ((gs.foldl (fun m g => (g.strengths.getD []).foldl bumpStrength m) m).map
          Prod.fst).Nodup := by
    intro gs
    induction gs with
    | nil => exact fun m h => h
    | cons g rest ih =>
        intro m h
        exact ih _ (inner _ _ h)
  exact main gs [] (by simp)

theorem mem_buildSkillMap_count (gs : List GenomeResponse) (k : String) (d : SkillData)
    (h : (k, d) ∈ buildSkillMap gs) : d.count = genomeOcc k gs := by
  have hg := alistGet_of_mem_nodup _ _ _ (buildSkillMap_keys_nodup gs) h
  have hc := skillCountOf_buildSkillMap gs k
  rw [skillCountOf, hg] at hc
  exact hc

theorem buildSkillMap_keys (gs : List GenomeResponse) :
    (buildSkillMap gs).map Prod.fst = dedupKeys (allSkillNames gs) := by
  have inner : ∀ (l : List Strength) (m : List (String × SkillData)),
      (l.foldl bumpStrength m).map Prod.fst =
        (l.map Strength.name).foldl
          (fun acc n => if acc.contains n then acc else acc ++ [n])
          (m.map Prod.fst) := by
    intro l
    induction l with
    | nil => simp
    | cons s rest ih =>
        intro m
        rw [List.foldl_cons, ih, List.map_cons, List.foldl_cons, bumpStrength,
          alistUpd_keys]
  have main : ∀ (gs : List GenomeResponse) (m : List (String × SkillData)),
      (gs.foldl (fun m g => (g.strengths.getD []).foldl bumpStrength m) m).map
          Prod.fst =
        gs.foldl
          (fun acc g =>
            ((g.strengths.getD []).map Strength.name).foldl
              (fun acc n => if acc.contains n then acc else acc ++ [n]) acc)
          (m.map Prod.fst) := by
    intro gs
    induction gs with
    | nil => simp
    | cons g rest ih =>
        intro m
        rw [List.foldl_cons, ih, inner, List.foldl_cons]
  rw [buildSkillMap, main gs [], dedupKeys, allSkillNames, List.foldl_flatten,
    List.foldl_map]
  rfl

/-! ### Bounds on the rounded percentages -/

theorem jsRound_nonneg (q : ℚ) (h : 0 ≤ q) : 0 ≤ jsRound q := by
  unfold jsRound
  rw [Int.floor_nonneg]
  linarith

theorem jsRound_mono {q r : ℚ} (h : q ≤ r) : jsRound q ≤ jsRound r :=
  Int.floor_le_floor (by linarith)

theorem jsRound_ten_thousand : jsRound 10000 = 10000 := by
  unfold jsRound
  rw [show (10000 : ℚ) + 1/2 = 1/2 + ((10000 : ℤ) : ℚ) by push_cast; ring,
    Int.floor_add_int, Int.floor_eq_zero_iff.mpr]
  · ring
  · constructor
    · norm_num
    · norm_num

theorem roundPct2_nonneg (c t : ℕ) : 0 ≤ roundPct2 c t := by
  unfold roundPct2
  have h1 : 0 ≤ jsRound ((c : ℚ) / (t : ℚ) * 100 * 100) := by
    apply jsRound_nonneg
    positivity
  have h2 : (0 : ℚ) ≤ (jsRound ((c : ℚ) / (t : ℚ) * 100 * 100) : ℚ) := by
    exact_mod_cast h1
  linarith

theorem roundPct2_le_100 (c t : ℕ) (hct : c ≤ t) (ht : 0 < t) : roundPct2 c t ≤ 100 := by
  unfold roundPct2
  have htq : (0 : ℚ) < (t : ℚ) := by exact_mod_cast ht
  have h1 : (c : ℚ) / (t : ℚ) ≤ 1 := by
    rw [div_le_one htq]
    exact_mod_cast hct
  have h2 : (c : ℚ) / (t : ℚ) * 100 * 100 ≤ 10000 := by nlinarith
  have h3 : jsRound ((c : ℚ) / (t : ℚ) * 100 * 100) ≤ 10000 :=
    le_of_le_of_eq (jsRound_mono h2) jsRound_ten_thousand
  have h4 : (jsRound ((c : ℚ) / (t : ℚ) * 100 * 100) : ℚ) ≤ 10000 := by
    exact_mod_cast h3
  linarith

/-! ### Stability of the count sort -/

theorem filter_insertAfterLe_count (a : SkillFrequency) (l : List SkillFrequency) (n : ℕ)
    (h : l.Pairwise fun x y => y.count ≤ x.count) :
    (insertAfterLe (fun a b => decide (a.count ≤ b.count)) a l).filter
        (fun s => decide (s.count = n)) =
      l.filter (fun s => decide (s.count = n)) ++ (if a.count = n then [a] else []) := by
  induction l with
  | nil => by_cases ha : a.count = n <;> simp [insertAfterLe, ha]
  | cons b rest ih =>
      rw [List.pairwise_cons] at h
      by_cases hle : a.count ≤ b.count
      · have hled : decide (a.count ≤ b.count) = true := decide_eq_true hle
        simp only [insertAfterLe, hled, if_true, List.filter_cons, ih h.2]
        by_cases hb : b.count = n
        · simp [hb]
        · simp [hb]
      · have hled : decide (a.count ≤ b.count) = false := decide_eq_false hle
        have hba : b.count < a.count := Nat.lt_of_not_le hle
        simp only [insertAfterLe, hled, Bool.false_eq_true, if_false, List.filter_cons]
        by_cases ha : a.count = n
        · have hbn : ¬b.count = n := by omega
          have hrest : rest.filter (fun s => decide (s.count = n)) = [] := by
            rw [List.filter_eq_nil_iff]
            intro x hx
            have := h.1 x hx
            simp only [decide_eq_true_eq]
            omega
          simp [ha, hbn, hrest]
        · simp [ha]

theorem filter_stableSort_count (l : List SkillFrequency) (n : ℕ) :
    (stableSort (fun a b => decide (a.count ≤ b.count)) l).filter
        (fun s => decide (s.count = n)) =
      l.filter (fun s => decide (s.count = n)) := by
  have tot : ∀ a b : SkillFrequency, decide (a.count ≤ b.count) = false →
      decide (b.count ≤ a.count) = true := by
    intro a b hab
    exact decide_eq_true (Nat.le_of_lt (Nat.lt_of_not_le (of_decide_eq_false hab)))
  have htrans : ∀ a b c : SkillFrequency, decide (b.count ≤ a.count) = true →
      decide (c.count ≤ b.count) = true → decide (c.count ≤ a.count) = true := by
    intro a b c h1 h2
    exact decide_eq_true (Nat.le_trans (of_decide_eq_true h2) (of_decide_eq_true h1))
  have main : ∀ (l acc : List SkillFrequency),
      (acc.Pairwise fun x y => decide (y.count ≤ x.count) = true) →
      (l.foldl (fun acc a =>
          insertAfterLe (fun a b => decide (a.count ≤ b.count)) a acc) acc).filter
          (fun s => decide (s.count = n)) =
        acc.filter (fun s => decide (s.count = n)) ++
          l.filter (fun s => decide (s.count = n)) := by
    intro l
    induction l with
    | nil => simp
    | cons a rest ih =>
        intro acc hacc
        have hins := pairwise_insertAfterLe (fun a b => decide (a.count ≤ b.count))
          tot htrans a acc hacc
        rw [List.foldl_cons, ih _ hins, filter_insertAfterLe_count a acc n
          (hacc.imp fun hd => of_decide_eq_true hd), List.filter_cons]
        by_cases ha : a.count = n
        · simp [ha, List.append_assoc]
        · simp [ha]
  simpa [stableSort] using main l [] List.Pairwise.nil

/-! ### Facts about `buildTeamAggregate` -/

theorem buildTeamAggregate_skills (gs : List GenomeResponse) :
    (buildTeamAggregate gs).skills =
      stableSort (fun a b => decide (a.count ≤ b.count)) (unsortedSkills gs) := by
  unfold buildTeamAggregate
  by_cases h : gs.isEmpty
  · rw [if_pos h]
    have hnil : gs = [] := List.isEmpty_iff.mp h
    subst hnil
    rfl
  · rw [if_neg h]

theorem buildTeamAggregate_totalMembers (gs : List GenomeResponse) :
    (buildTeamAggregate gs).totalMembers = gs.length := by
  unfold buildTeamAggregate
  by_cases h : gs.isEmpty
  · rw [if_pos h]
    have hnil : gs = [] := List.isEmpty_iff.mp h
    subst hnil
    rfl
  · rw [if_neg h]

theorem mem_aggregate_skills (gs : List GenomeResponse) (sf : SkillFrequency) :
    sf ∈ (buildTeamAggregate gs).skills ↔ sf ∈ unsortedSkills gs := by
  rw [buildTeamAggregate_skills, mem_stableSort]

theorem unsortedSkills_spec (gs : List GenomeResponse) (sf : SkillFrequency)
    (h : sf ∈ unsortedSkills gs) :
    sf.count = genomeOcc sf.skillName gs ∧
      sf.percentage = roundPct2 sf.count gs.length := by
  obtain ⟨p, hp, rfl⟩ := List.mem_map.mp h
  exact ⟨mem_buildSkillMap_count gs p.1 p.2 (by simpa using hp), rfl⟩

theorem aggregate_percentage_nonneg (gs : List GenomeResponse) (sf : SkillFrequency)
    (h : sf ∈ (buildTeamAggregate gs).skills) : 0 ≤ sf.percentage := by
  obtain ⟨p, hp, rfl⟩ := List.mem_map.mp ((mem_aggregate_skills gs _).mp h)
  exact roundPct2_nonneg _ _

/-! ### Facts about the team-skill lookup -/

theorem teamSkillLookup_mem (skills : List SkillFrequency) (key : String)
    (sk : SkillFrequency) (h : teamSkillLookup skills key = some sk) : sk ∈ skills := by
  have main : ∀ (l : List SkillFrequency) (acc : Option SkillFrequency),
      l.foldl (fun acc x => if jsToLower x.skillName = key then some x else acc) acc =
        some sk → sk ∈ l ∨ acc = some sk := by
    intro l
    induction l with
    | nil => exact fun acc h => Or.inr h
    | cons x rest ih =>
        intro acc h
        rw [List.foldl_cons] at h
        rcases ih _ h with hmem | hacc
        · exact Or.inl (List.mem_cons_of_mem _ hmem)
        · by_cases hx : jsToLower x.skillName = key
          · rw [if_pos hx] at hacc
            exact Or.inl (List.mem_cons.mpr (Or.inl (Option.some.inj hacc).symm))
          · rw [if_neg hx] at hacc
            exact Or.inr hacc
  rcases main skills none h with hm | hb
  · exact hm
  · exact Option.noConfusion hb

theorem teamSkillLookup_eq_none (skills : List SkillFrequency) (key : String)
    (h : ∀ sk ∈ skills, jsToLower sk.skillName ≠ key) :
    teamSkillLookup skills key = none := by
  have main : ∀ (l : List SkillFrequency) (acc : Option SkillFrequency),
      (∀ sk ∈ l, jsToLower sk.skillName ≠ key) →
      l.foldl (fun acc x => if jsToLower x.skillName = key then some x else acc) acc =
        acc := by
    intro l
    induction l with
    | nil => exact fun acc _ => rfl
    | cons x rest ih =>
        intro acc hl
        rw [List.foldl_cons, if_neg (hl x (List.mem_cons_self _ _)),
          ih _ fun y hy => hl y (List.mem_cons_of_mem _ hy)]
  exact main skills none h

theorem teamSkillLookup_unique (skills : List SkillFrequency) (key : String)
    (sk : SkillFrequency) (hmem : sk ∈ skills) (hk : jsToLower sk.skillName = key)
    (huniq : ∀ x ∈ skills, jsToLower x.skillName = key → x = sk) :
    teamSkillLookup skills key = some sk := by
  have keep : ∀ (l : List SkillFrequency),
      (∀ x ∈ l, jsToLower x.skillName = key → x = sk) →
      l.foldl (fun acc x => if jsToLower x.skillName = key then some x else acc)
        (some sk) = some sk := by
    intro l
    induction l with
    | nil => exact fun _ => rfl
    | cons x rest ih =>
        intro hl
        rw [List.foldl_cons]
        by_cases hx : jsToLower x.skillName = key
        · rw [if_pos hx, hl x (List.mem_cons_self _ _) hx]
          exact ih fun y hy hyk => hl y (List.mem_cons_of_mem _ hy) hyk
        · rw [if_neg hx]
          exact ih fun y hy hyk => hl y (List.mem_cons_of_mem _ hy) hyk
  have main : ∀ (l : List SkillFrequency) (acc : Option SkillFrequency), sk ∈ l →
      (∀ x ∈ l, jsToLower x.skillName = key → x = sk) →
      l.foldl (fun acc x => if jsToLower x.skillName = key then some x else acc) acc =
        some sk := by
    intro l
    induction l with
    | nil => intro acc h; exact absurd h (List.not_mem_nil sk)
    | cons x rest ih =>
        intro acc hx hl
        rw [List.foldl_cons]
        by_cases hrest : sk ∈ rest
        · exact ih _ hrest fun y hy hyk => hl y (List.mem_cons_of_mem _ hy) hyk
        · have hxk : x = sk := by
            rcases List.mem_cons.mp hx with h | h
            · exact h.symm
            · exact absurd h hrest
          subst hxk
          rw [if_pos hk]
          exact keep rest fun y hy hyk => hl y (List.mem_cons_of_mem _ hy) hyk
  exact main skills none hmem huniq

/-! ### Structural lemmas for `calculateDelta` and `generateAlerts` -/

theorem calculateDelta_redundantSkills (c : GenomeResponse) (t : TeamAggregate) :
    (calculateDelta c t).redundantSkills =
      stableSort (fun a b => decide (a.teamCoverage ≤ b.teamCoverage))
        (((c.strengths.getD []).map (mkSkillDelta t)).filter (·.isRedundant)) := rfl

theorem calculateDelta_valueAddSkills (c : GenomeResponse) (t : TeamAggregate) :
    (calculateDelta c t).valueAddSkills =
      stableSort (fun a b => decide (b.teamCoverage ≤ a.teamCoverage))
        (((c.strengths.getD []).map (mkSkillDelta t)).filter
          fun d => !d.isRedundant && d.isValueAdd) := rfl

theorem calculateDelta_valueAddLanguages (c : GenomeResponse) (t : TeamAggregate) :
    (calculateDelta c t).valueAddLanguages =
      (c.languages.getD []).filterMap (fun l =>
        if langCoverage t l.code < VALUE_ADD_THRESHOLD then
          some ⟨l.code, l.language, orUnknown l.fluency, langCoverage t l.code, true⟩
        else none) := rfl

theorem calculateDelta_summary_totalValueAdd (c : GenomeResponse) (t : TeamAggregate) :
    (calculateDelta c t).summary.totalValueAddSkills =
      (calculateDelta c t).valueAddSkills.length := rfl

theorem generateAlerts_redundancyAlerts (delta : DeltaAnalysis) :
    (generateAlerts delta).redundancyAlerts =
      (dedupKeys (delta.redundantSkills.map groupKey)).filterMap (fun k =>
        match delta.redundantSkills.filter (fun s => groupKey s = k) with
        | [] => none
        | skill :: rest =>
            some (mkRedundancyAlert
              (if delta.summary.totalTeamMembers = 0 then 1
               else delta.summary.totalTeamMembers) skill (skill :: rest))) := rfl

theorem generateAlerts_valueAddAlert (delta : DeltaAnalysis) :
    (generateAlerts delta).valueAddAlert =
      if delta.valueAddSkills.isEmpty && delta.valueAddLanguages.isEmpty then none
      else some (mkValueAddAlert delta.valueAddSkills delta.valueAddLanguages) := rfl

theorem mkValueAddAlert_skills (vs : List SkillDelta) (vl : List LanguageDelta) :
    (mkValueAddAlert vs vl).skills = vs.take 10 := rfl

theorem mkValueAddAlert_languages (vs : List SkillDelta) (vl : List LanguageDelta) :
    (mkValueAddAlert vs vl).languages = vl := rfl

theorem mem_redundancyAlerts (delta : DeltaAnalysis) (a : RedundancyAlert)
    (h : a ∈ (generateAlerts delta).redundancyAlerts) :
    ∃ (k : String) (s : SkillDelta) (rest : List SkillDelta),
      delta.redundantSkills.filter (fun x => groupKey x = k) = s :: rest ∧
      a = mkRedundancyAlert
        (if delta.summary.totalTeamMembers = 0 then 1
         else delta.summary.totalTeamMembers) s (s :: rest) := by
  rw [generateAlerts_redundancyAlerts] at h
  obtain ⟨k, hk, hf⟩ := List.mem_filterMap.mp h
  cases hfl : delta.redundantSkills.filter (fun s => groupKey s = k) with
  | nil => rw [hfl] at hf; exact Option.noConfusion hf
  | cons s rest =>
      rw [hfl] at hf
      exact ⟨k, s, rest, hfl, (Option.some.inj hf).symm⟩

theorem mkSkillDelta_coverage_nonneg (gs : List GenomeResponse) (s : Strength) :
    0 ≤ (mkSkillDelta (buildTeamAggregate gs) s).teamCoverage := by
  unfold mkSkillDelta
  cases hlk : teamSkillLookup (buildTeamAggregate gs).skills (jsToLower s.name) with
  | none => simp [hlk]
  | some sk =>
      have hmem := teamSkillLookup_mem _ _ _ hlk
      have hp := aggregate_percentage_nonneg gs sk hmem
      simp only [hlk]
      positivity

theorem pipeline_valueAdd_nonneg (gs : List GenomeResponse) (c : GenomeResponse)
    (d : SkillDelta) (hd : d ∈ (calculateDelta c (buildTeamAggregate gs)).valueAddSkills) :
    0 ≤ d.teamCoverage := by
  rw [calculateDelta_valueAddSkills, mem_stableSort] at hd
  obtain ⟨hd, _⟩ := List.mem_filter.mp hd
  obtain ⟨s, _, rfl⟩ := List.mem_map.mp hd
  exact mkSkillDelta_coverage_nonneg gs s

theorem valueAddSkills_sorted (c : GenomeResponse) (t : TeamAggregate) :
    ((calculateDelta c t).valueAddSkills).Pairwise
      fun x y => x.teamCoverage ≤ y.teamCoverage := by
  rw [calculateDelta_valueAddSkills]
  have tot : ∀ a b : SkillDelta, decide (b.teamCoverage ≤ a.teamCoverage) = false →
      decide (a.teamCoverage ≤ b.teamCoverage) = true := fun a b hab =>
    decide_eq_true (le_of_not_le (of_decide_eq_false hab))
  have htrans : ∀ a b c : SkillDelta,
      decide (a.teamCoverage ≤ b.teamCoverage) = true →
      decide (b.teamCoverage ≤ c.teamCoverage) = true →
      decide (a.teamCoverage ≤ c.teamCoverage) = true := fun a b c h1 h2 =>
    decide_eq_true (le_trans (of_decide_eq_true h1) (of_decide_eq_true h2))
  exact (pairwise_stableSort _ tot htrans _).imp fun hd => of_decide_eq_true hd

theorem redundantSkills_sorted (c : GenomeResponse) (t : TeamAggregate) :
    ((calculateDelta c t).redundantSkills).Pairwise
      fun x y => y.teamCoverage ≤ x.teamCoverage := by
  rw [calculateDelta_redundantSkills]
  have tot : ∀ a b : SkillDelta, decide (a.teamCoverage ≤ b.teamCoverage) = false →
      decide (b.teamCoverage ≤ a.teamCoverage) = true := fun a b hab =>
    decide_eq_true (le_of_not_le (of_decide_eq_false hab))
  have htrans : ∀ a b c : SkillDelta,
      decide (b.teamCoverage ≤ a.teamCoverage) = true →
      decide (c.teamCoverage ≤ b.teamCoverage) = true →
      decide (c.teamCoverage ≤ a.teamCoverage) = true := fun a b c h1 h2 =>
    decide_eq_true (le_trans (of_decide_eq_true h2) (of_decide_eq_true h1))
  exact (pairwise_stableSort _ tot htrans _).imp fun hd => of_decide_eq_true hd

/-! ### Occurrence bounds under per-profile uniqueness -/

theorem strengthOcc_le_one (name : String) (l : List Strength)
    (h : (l.map Strength.name).Nodup) : strengthOcc name l ≤ 1 := by
  induction l with
  | nil => simp [strengthOcc]
  | cons s rest ih =>
      simp only [List.map_cons, List.nodup_cons] at h
      unfold strengthOcc
      rw [List.filter_cons]
      by_cases hn : s.name = name
      · have hzero : strengthOcc name rest = 0 := by
          unfold strengthOcc
          rw [List.length_eq_zero, List.filter_eq_nil_iff]
          intro x hx
          simp only [decide_eq_true_eq]
          intro hxn
          exact h.1 (List.mem_map.mpr ⟨x, hx, by rw [hxn, hn]⟩)
        unfold strengthOcc at hzero
        simp [hn, hzero]
      · have hd : decide (s.name = name) = false := decide_eq_false hn
        simp only [hd, Bool.false_eq_true, if_false]
        exact ih h.2

theorem genomeOcc_le_length (name : String) (gs : List GenomeResponse)
    (h : ∀ g ∈ gs, ((g.strengths.getD []).map Strength.name).Nodup) :
    genomeOcc name gs ≤ gs.length := by
  unfold genomeOcc
  calc (gs.map fun g => strengthOcc name (g.strengths.getD [])).sum
      ≤ (gs.map fun g => strengthOcc name (g.strengths.getD [])).length • 1 := by
        apply List.sum_le_card_nsmul
        intro x hx
        obtain ⟨g, hg, rfl⟩ := List.mem_map.mp hx
        exact strengthOcc_le_one name _ (h g hg)
    _ = gs.length := by simp

/-- C1 (amended): every `SkillFrequency` entry produced by `buildTeamAggregate`
has `count` equal to the number of skill observations with that exact
(case-sensitive) name across all input profiles — which is the number of
profiles containing the skill only when no profile repeats a name —
`percentage = round(count/totalMembers*100, 2 decimals)`, a nonnegative
percentage, and, when no profile lists the same skill name twice, a
percentage that is at most 100. -/
theorem claim_C1 (gs : List GenomeResponse) (sf : SkillFrequency)
    (h : sf ∈ (buildTeamAggregate gs).skills) :
    sf.count = genomeOcc sf.skillName gs ∧
    sf.percentage = roundPct2 sf.count gs.length ∧
    0 ≤ sf.percentage ∧
    ((∀ g ∈ gs, ((g.strengths.getD []).map Strength.name).Nodup) →
      sf.percentage ≤ 100) := by
  have hu := (mem_aggregate_skills gs sf).mp h
  obtain ⟨hc, hp⟩ := unsortedSkills_spec gs sf hu
  refine ⟨hc, hp, aggregate_percentage_nonneg gs sf h, ?_⟩
  intro hnd
  have hle : genomeOcc sf.skillName gs ≤ gs.length := genomeOcc_le_length _ _ hnd
  have hpos : 0 < gs.length := by
    cases hgs : gs with
    | nil =>
        subst hgs
        rw [mem_aggregate_skills] at h
        simp [unsortedSkills, buildSkillMap] at h
    | cons g rest => simp
  rw [hp, hc]
  exact roundPct2_le_100 _ _ hle hpos

/-- C1 witness: a concrete one-member team on which `claim_C1` applies. -/
theorem claim_C1_witness :
    ∃ sf, sf ∈ (buildTeamAggregate pyTeam).skills ∧
      sf.count = genomeOcc sf.skillName pyTeam ∧
      sf.percentage = roundPct2 sf.count pyTeam.length ∧
      0 ≤ sf.percentage ∧ sf.percentage ≤ 100 := by
  refine ⟨⟨"Python", 1, 100, [("expert", 1)]⟩, by decide, ?_⟩
  have h := claim_C1 pyTeam ⟨"Python", 1, 100, [("expert", 1)]⟩ (by decide)
  exact ⟨h.1, h.2.1, h.2.2.1, h.2.2.2 (by decide)⟩

/-- C1 counterexample: a single profile listing the same skill twice makes
`count` exceed the number of profiles containing the skill and drives the
percentage to 200, outside `[0,100]`. -/
theorem claim_C1_counterexample :
    (buildTeamAggregate dupProfiles).skills =
      [⟨"A", 2, 200, [("unknown", 2)]⟩] ∧
    ¬ (∀ sf ∈ (buildTeamAggregate dupProfiles).skills,
        sf.count = (dupProfiles.filter fun g =>
          (g.strengths.getD []).any fun s => s.name = sf.skillName).length ∧
        0 ≤ sf.percentage ∧ sf.percentage ≤ 100) := by
  constructor
  · decide
  · decide

/-- C2: a skill delta built by `calculateDelta` is redundant exactly when the
team coverage strictly exceeds 0.8 and value-add exactly when it is strictly
below 0.2, so coverage exactly 0.8 or 0.2 is neither, and no delta is both
redundant and value-add; this holds for the delta built from every candidate
strength and for every member of the output lists. -/
theorem claim_C2 :
    (∀ (t : TeamAggregate) (s : Strength),
      ((mkSkillDelta t s).isRedundant = true ↔
        REDUNDANCY_THRESHOLD < (mkSkillDelta t s).teamCoverage) ∧
      ((mkSkillDelta t s).isValueAdd = true ↔
        (mkSkillDelta t s).teamCoverage < VALUE_ADD_THRESHOLD) ∧
      ¬((mkSkillDelta t s).isRedundant = true ∧
        (mkSkillDelta t s).isValueAdd = true)) ∧
    (∀ (c : GenomeResponse) (t : TeamAggregate) (d : SkillDelta),
      (d ∈ (calculateDelta c t).redundantSkills ∨
        d ∈ (calculateDelta c t).valueAddSkills) →
      (d.isRedundant = true ↔ REDUNDANCY_THRESHOLD < d.teamCoverage) ∧
      (d.isValueAdd = true ↔ d.teamCoverage < VALUE_ADD_THRESHOLD) ∧
      ¬(d.isRedundant = true ∧ d.isValueAdd = true)) := by
  have base : ∀ (t : TeamAggregate) (s : Strength),
      ((mkSkillDelta t s).isRedundant = true ↔
        REDUNDANCY_THRESHOLD < (mkSkillDelta t s).teamCoverage) ∧
      ((mkSkillDelta t s).isValueAdd = true ↔
        (mkSkillDelta t s).teamCoverage < VALUE_ADD_THRESHOLD) ∧
      ¬((mkSkillDelta t s).isRedundant = true ∧
        (mkSkillDelta t s).isValueAdd = true) := by
    intro t s
    refine ⟨decide_eq_true_iff, decide_eq_true_iff, ?_⟩
    rintro ⟨h1, h2⟩
    have hr := of_decide_eq_true h1
    have hv := of_decide_eq_true h2
    unfold REDUNDANCY_THRESHOLD at hr
    unfold VALUE_ADD_THRESHOLD at hv
    linarith
  refine ⟨base, ?_⟩
  intro c t d hd
  have hmk : ∃ s, mkSkillDelta t s = d := by
    rcases hd with hd | hd
    · rw [calculateDelta_redundantSkills, mem_stableSort] at hd
      obtain ⟨hd, _⟩ := List.mem_filter.mp hd
      obtain ⟨s, _, hs⟩ := List.mem_map.mp hd
      exact ⟨s, hs⟩
    · rw [calculateDelta_valueAddSkills, mem_stableSort] at hd
      obtain ⟨hd, _⟩ := List.mem_filter.mp hd
      obtain ⟨s, _, hs⟩ := List.mem_map.mp hd
      exact ⟨s, hs⟩
  obtain ⟨s, rfl⟩ := hmk
  exact base t s

/-- C2 witness: a concrete fully-covered skill on which `claim_C2` applies. -/
theorem claim_C2_witness :
    ∃ d, d ∈ (calculateDelta tsCand (buildTeamAggregate tsTeam)).redundantSkills ∧
      (d.isRedundant = true ↔ REDUNDANCY_THRESHOLD < d.teamCoverage) ∧
      (d.isValueAdd = true ↔ d.teamCoverage < VALUE_ADD_THRESHOLD) ∧
      ¬(d.isRedundant = true ∧ d.isValueAdd = true) := by
  refine ⟨⟨"TypeScript", "expert", 1, [("expert", 100)], true, false⟩, by decide, ?_⟩
  exact claim_C2.2 tsCand (buildTeamAggregate tsTeam) _ (Or.inl (by decide))

theorem mkSkillDelta_teamCoverage (t : TeamAggregate) (s : Strength) :
    (mkSkillDelta t s).teamCoverage =
      ((match teamSkillLookup t.skills (jsToLower s.name) with
        | some sk => sk.percentage / 100
        | none => 0) : ℚ) := rfl

theorem mkSkillDelta_skillName (t : TeamAggregate) (s : Strength) :
    (mkSkillDelta t s).skillName = s.name := rfl

/-- C3: `calculateDelta` matches a candidate skill against team skills by
lower-cased name: when exactly one team skill matches case-insensitively, the
delta team coverage equals that team skill percentage divided by 100, while
the output `skillName` keeps the candidate spelling; with no case-insensitive
match the coverage is 0.  Candidate languages are matched by exact,
case-sensitive code: an entry with exactly that code supplies
`percentage / 100`, and any team whose codes all differ from the candidate
code (even if only by case) yields coverage 0. -/
theorem claim_C3 :
    (∀ (t : TeamAggregate) (s : Strength) (sk : SkillFrequency),
      sk ∈ t.skills → jsToLower sk.skillName = jsToLower s.name →
      (∀ sk₂ ∈ t.skills, jsToLower sk₂.skillName = jsToLower s.name → sk₂ = sk) →
      (mkSkillDelta t s).teamCoverage = sk.percentage / 100 ∧
      (mkSkillDelta t s).skillName = s.name) ∧
    (∀ (t : TeamAggregate) (s : Strength),
      (∀ sk ∈ t.skills, jsToLower sk.skillName ≠ jsToLower s.name) →
      (mkSkillDelta t s).teamCoverage = 0 ∧
      (mkSkillDelta t s).skillName = s.name) ∧
    (∀ (t : TeamAggregate) (code : String) (lf : LangFrequency),
      (t.languages.map Prod.fst).Nodup → (code, lf) ∈ t.languages →
      langCoverage t code = lf.percentage / 100) ∧
    (∀ (t : TeamAggregate) (code : String),
      (∀ p ∈ t.languages, p.1 ≠ code) → langCoverage t code = 0) := by
  refine ⟨?_, ?_, ?_, ?_⟩
  · intro t s sk hmem hk huniq
    have hlk := teamSkillLookup_unique t.skills (jsToLower s.name) sk hmem hk huniq
    constructor
    · rw [mkSkillDelta_teamCoverage, hlk]
    · exact mkSkillDelta_skillName t s
  · intro t s hnone
    have hlk := teamSkillLookup_eq_none t.skills (jsToLower s.name) hnone
    constructor
    · rw [mkSkillDelta_teamCoverage, hlk]
    · exact mkSkillDelta_skillName t s
  · intro t code lf hnd hmem
    unfold langCoverage
    rw [alistGet_of_mem_nodup t.languages code lf hnd hmem]
  · intro t code hne
    unfold langCoverage
    rw [alistGet_eq_none t.languages code hne]

/-- C3 witness: a team skill `Python` matched by a candidate skill `python`,
and the language codes `en` (exact, matched) versus `EN` (wrong case, not
matched). -/
theorem claim_C3_witness :
    (mkSkillDelta (buildTeamAggregate pyTeam) ⟨"python", some "novice"⟩).teamCoverage
        = 100 / 100 ∧
    (mkSkillDelta (buildTeamAggregate pyTeam) ⟨"python", some "novice"⟩).skillName
        = "python" ∧
    langCoverage (buildTeamAggregate pyTeam) "en" = 100 / 100 ∧
    langCoverage (buildTeamAggregate pyTeam) "EN" = 0 := by
  have h1 := claim_C3.1 (buildTeamAggregate pyTeam) ⟨"python", some "novice"⟩
    ⟨"Python", 1, 100, [("expert", 1)]⟩ (by decide) (by decide)
    (by decide)
  have h3 := claim_C3.2.2.1 (buildTeamAggregate pyTeam) "en"
    ⟨1, 100, [("fully-fluent", 1)]⟩ (by decide) (by decide)
  have h4 := claim_C3.2.2.2 (buildTeamAggregate pyTeam) "EN" (by decide)
  exact ⟨h1.1, h1.2, h3, h4⟩

theorem mkRedundancyAlert_skills (tm : ℕ) (skill : SkillDelta)
    (group : List SkillDelta) : (mkRedundancyAlert tm skill group).skills = group := rfl

theorem mkRedundancyAlert_severity (tm : ℕ) (skill : SkillDelta)
    (group : List SkillDelta) :
    (mkRedundancyAlert tm skill group).severity = severityFor skill.teamCoverage := rfl

theorem mkRedundancyAlert_count_message (tm : ℕ) (skill : SkillDelta)
    (group : List SkillDelta) :
    (0 < exactMatchCount tm skill →
      (mkRedundancyAlert tm skill group).count = exactMatchCount tm skill ∧
      (mkRedundancyAlert tm skill group).message =
        "Warning: You already have " ++ toString (exactMatchCount tm skill) ++
          " team member" ++ (if 1 < exactMatchCount tm skill then "s" else "") ++
          " with " ++ skill.skillName ++ " at " ++
          formatProficiency skill.candidateProficiency ++ " proficiency level.") ∧
    (exactMatchCount tm skill = 0 →
      (mkRedundancyAlert tm skill group).message =
        "Warning: " ++ toString (jsRound (skill.teamCoverage * 100)) ++
          "% of your team already has " ++ skill.skillName ++ "." ∧
      (mkRedundancyAlert tm skill group).count =
        jsRound (skill.teamCoverage * (tm : ℚ))) := by
  unfold mkRedundancyAlert exactMatchCount
  constructor
  · intro hpos
    constructor
    · show (if jsRound _ = 0 then _ else _) = _
      rw [if_neg (by omega)]
    · show (if 0 < jsRound _ then _ else _) = _
      rw [if_pos hpos]
  · intro hz
    constructor
    · show (if 0 < jsRound _ then _ else _) = _
      rw [if_neg (by omega)]
    · show (if jsRound _ = 0 then _ else _) = _
      rw [if_pos hz]

/-- C5: every redundancy alert reports, when the exact-proficiency match
count `round(pct/100 * totalTeamMembers)` is positive, that count and the
member-count message (pluralized exactly when the count exceeds 1), and
otherwise the coverage-percentage message with the fallback count
`round(teamCoverage * totalTeamMembers)`. -/
theorem claim_C5 (delta : DeltaAnalysis) (a : RedundancyAlert) (s : SkillDelta)
    (hmem : a ∈ (generateAlerts delta).redundancyAlerts)
    (hhead : a.skills.head? = some s)
    (htm : 0 < delta.summary.totalTeamMembers) :
    (0 < exactMatchCount delta.summary.totalTeamMembers s →
      a.count = exactMatchCount delta.summary.totalTeamMembers s ∧
      a.message = "Warning: You already have " ++
        toString (exactMatchCount delta.summary.totalTeamMembers s) ++
        " team member" ++
        (if 1 < exactMatchCount delta.summary.totalTeamMembers s then "s" else "") ++
        " with " ++ s.skillName ++ " at " ++
        formatProficiency s.candidateProficiency ++ " proficiency level.") ∧
    (exactMatchCount delta.summary.totalTeamMembers s = 0 →
      a.message = "Warning: " ++ toString (jsRound (s.teamCoverage * 100)) ++
        "% of your team already has " ++ s.skillName ++ "." ∧
      a.count = jsRound (s.teamCoverage * (delta.summary.totalTeamMembers : ℚ))) := by
  obtain ⟨k, s₀, rest, hfl, rfl⟩ := mem_redundancyAlerts delta a hmem
  rw [mkRedundancyAlert_skills, List.head?_cons] at hhead
  have hs : s₀ = s := Option.some.inj hhead
  subst hs
  rw [if_neg (by omega : ¬delta.summary.totalTeamMembers = 0)]
  exact mkRedundancyAlert_count_message delta.summary.totalTeamMembers s₀ (s₀ :: rest)

/-- C5 witness: a ten-member team with nine Go experts and a Go-expert
candidate yields the alert with count 9, the pluralized exact-match message,
and high severity. -/
theorem claim_C5_witness :
    ∃ a, a ∈ (generateAlerts
        (calculateDelta goCand (buildTeamAggregate goTeam))).redundancyAlerts ∧
      a.count = 9 ∧
      a.message =
        "Warning: You already have 9 team members with Go at Expert proficiency level." ∧
      a.severity = Severity.high := by
  refine ⟨⟨"redundancy", Severity.high,
    "Warning: You already have 9 team members with Go at Expert proficiency level.",
    [⟨"Go", "expert", 9/10, [("expert", 90)], true, false⟩], 9⟩, by decide, ?_, by decide,
    by decide⟩
  have h := claim_C5 (calculateDelta goCand (buildTeamAggregate goTeam))
    ⟨"redundancy", Severity.high,
      "Warning: You already have 9 team members with Go at Expert proficiency level.",
      [⟨"Go", "expert", 9/10, [("expert", 90)], true, false⟩], 9⟩
    ⟨"Go", "expert", 9/10, [("expert", 90)], true, false⟩
    (by decide) (by decide) (by decide)
  obtain ⟨hcnt, _⟩ := h.1 (by decide)
  rw [hcnt]
  decide

theorem mem_dedupKeys (l : List String) (k : String) (h : k ∈ dedupKeys l) : k ∈ l := by
  have main : ∀ (l acc : List String),
      k ∈ l.foldl (fun acc k => if acc.contains k then acc else acc ++ [k]) acc →
      k ∈ acc ∨ k ∈ l := by
    intro l
    induction l with
    | nil => exact fun acc h => Or.inl h
    | cons x rest ih =>
        intro acc h
        rw [List.foldl_cons] at h
        rcases ih _ h with hacc | hrest
        · by_cases hx : acc.contains x = true
          · rw [if_pos hx] at hacc
            exact Or.inl hacc
          · rw [if_neg hx] at hacc
            rcases List.mem_append.mp hacc with h1 | h1
            · exact Or.inl h1
            · simp only [List.mem_singleton] at h1
              exact Or.inr (h1 ▸ List.mem_cons_self x rest)
        · exact Or.inr (List.mem_cons_of_mem _ hrest)
  rcases main l [] h with h0 | h0
  · exact absurd h0 (List.not_mem_nil k)
  · exact h0

theorem length_filterMap_of_isSome {α β : Type} (f : α → Option β) (l : List α)
    (h : ∀ x ∈ l, (f x).isSome) : (l.filterMap f).length = l.length := by
  induction l with
  | nil => rfl
  | cons x rest ih =>
      obtain ⟨y, hy⟩ := Option.isSome_iff_exists.mp (h x (List.mem_cons_self _ _))
      rw [List.filterMap_cons, hy, List.length_cons,
        ih fun z hz => h z (List.mem_cons_of_mem _ hz)]
      rfl

/-- C6 (amended): `generateAlerts` produces exactly one redundancy alert per
distinct composite key string `lowercased name ++ "_" ++ proficiency` among
the redundant skills, and every delta in one alert shares that composite key
string.  Because the separator can be absorbed by either side, sharing the
key string does not force sharing the (name, proficiency) pair. -/
theorem claim_C6 (delta : DeltaAnalysis) :
    (generateAlerts delta).redundancyAlerts.length =
      (dedupKeys (delta.redundantSkills.map groupKey)).length ∧
    ∀ a ∈ (generateAlerts delta).redundancyAlerts,
      ∃ k, a.skills = delta.redundantSkills.filter (fun s => groupKey s = k) ∧
        ∀ s ∈ a.skills, groupKey s = k := by
  constructor
  · rw [generateAlerts_redundancyAlerts]
    apply length_filterMap_of_isSome
    intro k hk
    obtain ⟨x, hx, hxk⟩ := List.mem_map.mp (mem_dedupKeys _ _ hk)
    have hxf : x ∈ delta.redundantSkills.filter (fun s => groupKey s = k) :=
      List.mem_filter.mpr ⟨hx, decide_eq_true hxk⟩
    cases hfl : delta.redundantSkills.filter (fun s => groupKey s = k) with
    | nil =>
        rw [hfl] at hxf
        exact absurd hxf (List.not_mem_nil x)
    | cons s rest => rfl
  · intro a ha
    obtain ⟨k, s, rest, hfl, rfl⟩ := mem_redundancyAlerts delta a ha
    refine ⟨k, by rw [mkRedundancyAlert_skills]; exact hfl.symm, ?_⟩
    intro x hx
    rw [mkRedundancyAlert_skills, ← hfl] at hx
    exact of_decide_eq_true (List.mem_filter.mp hx).2

/-- C6 counterexample: through the full pipeline, the candidate strengths
(`a`, proficiency `b_c`) and (`a_b`, proficiency `c`) are both redundant and
land in the same alert although their (name, proficiency) pairs differ,
because both produce the composite key `a_b_c`. -/
theorem claim_C6_counterexample :
    ∃ a ∈ (generateAlerts
        (calculateDelta confCand (buildTeamAggregate confTeam))).redundancyAlerts,
      ∃ s₁ ∈ a.skills, ∃ s₂ ∈ a.skills,
        ¬(s₁.skillName = s₂.skillName ∧
          s₁.candidateProficiency = s₂.candidateProficiency) := by
  decide

/-- C6 witness: a delta with one skill redundant at two proficiency levels
produces two alerts, one per composite key, each listing exactly its group. -/
theorem claim_C6_witness :
    (generateAlerts c6Delta).redundancyAlerts.length =
      (dedupKeys (c6Delta.redundantSkills.map groupKey)).length ∧
    (generateAlerts c6Delta).redundancyAlerts.length = 2 ∧
    ∃ a, a ∈ (generateAlerts c6Delta).redundancyAlerts ∧
      ∃ k, a.skills = c6Delta.redundantSkills.filter (fun s => groupKey s = k) ∧
        ∀ s ∈ a.skills, groupKey s = k := by
  have h := claim_C6 c6Delta
  refine ⟨h.1, by decide, ?_⟩
  refine ⟨⟨"redundancy", Severity.high,
    "Warning: 100% of your team already has R.",
    [⟨"R", "expert", 1, [], true, false⟩], 1⟩, by decide, ?_⟩
  exact h.2 _ (by decide)

/-- C7: a redundancy alert has severity high exactly when the coverage of its
leading skill is at least 0.9, medium exactly when it lies in [0.85, 0.9),
and low exactly when it is below 0.85; in particular the severity cascade
maps 0.90 to high, 0.89 and 0.85 to medium, and 0.84 and 0.80001 to low. -/
theorem claim_C7 :
    (∀ (delta : DeltaAnalysis) (a : RedundancyAlert) (s : SkillDelta),
      a ∈ (generateAlerts delta).redundancyAlerts → a.skills.head? = some s →
      (a.severity = Severity.high ↔ 9/10 ≤ s.teamCoverage) ∧
      (a.severity = Severity.medium ↔
        85/100 ≤ s.teamCoverage ∧ s.teamCoverage < 9/10) ∧
      (a.severity = Severity.low ↔ s.teamCoverage < 85/100)) ∧
    severityFor (9/10) = Severity.high ∧
    severityFor (89/100) = Severity.medium ∧
    severityFor (85/100) = Severity.medium ∧
    severityFor (84/100) = Severity.low ∧
    severityFor (80001/100000) = Severity.low := by
  refine ⟨?_, by decide, by decide, by decide, by decide, by decide⟩
  intro delta a s hmem hhead
  obtain ⟨k, s₀, rest, hfl, rfl⟩ := mem_redundancyAlerts delta a hmem
  rw [mkRedundancyAlert_skills, List.head?_cons] at hhead
  have hs : s₀ = s := Option.some.inj hhead
  subst hs
  rw [mkRedundancyAlert_severity]
  unfold severityFor
  split_ifs with h1 h2
  · refine ⟨⟨fun _ => h1, fun _ => rfl⟩, ?_, ?_⟩
    · constructor
      · intro hc
        exact absurd hc (by simp)
      · rintro ⟨_, hlt⟩
        linarith
    · constructor
      · intro hc
        exact absurd hc (by simp)
      · intro hlt
        linarith
  · refine ⟨?_, ⟨fun _ => ⟨h2, lt_of_not_le h1⟩, fun _ => rfl⟩, ?_⟩
    · constructor
      · intro hc
        exact absurd hc (by simp)
      · intro hge
        exact absurd hge h1
    · constructor
      · intro hc
        exact absurd hc (by simp)
      · intro hlt
        linarith
  · refine ⟨?_, ?_, ⟨fun _ => lt_of_not_le h2, fun _ => rfl⟩⟩
    · constructor
      · intro hc
        exact absurd hc (by simp)
      · intro hge
        have := lt_of_not_le h2
        linarith
    · constructor
      · intro hc
        exact absurd hc (by simp)
      · rintro ⟨hge, _⟩
        exact absurd hge h2

/-- C7 witness: a redundant skill at coverage 0.87 yields a medium-severity
alert, and the biconditional of `claim_C7` applies to it. -/
theorem claim_C7_witness :
    ∃ a, a ∈ (generateAlerts c7Delta).redundancyAlerts ∧
      a.severity = Severity.medium ∧
      (a.severity = Severity.medium ↔
        85/100 ≤ (87/100 : ℚ) ∧ (87/100 : ℚ) < 9/10) := by
  refine ⟨⟨"redundancy", Severity.medium,
    "Warning: 87% of your team already has Kotlin.",
    [⟨"Kotlin", "expert", 87/100, [], true, false⟩], 3⟩, by decide, by decide, ?_⟩
  exact (claim_C7.1 c7Delta _ ⟨"Kotlin", "expert", 87/100, [], true, false⟩
    (by decide) (by decide)).2.1

/-- C8: when more than ten value-add skills exist, the value-add alert
exposes exactly the first ten (the rarest-first prefix), lists all value-add
languages, and the summary still records the untruncated count. -/
theorem claim_C8 :
    (∀ delta : DeltaAnalysis, 10 < delta.valueAddSkills.length →
      ∃ a, (generateAlerts delta).valueAddAlert = some a ∧
        a.skills = delta.valueAddSkills.take 10 ∧
        a.languages = delta.valueAddLanguages) ∧
    (∀ (c : GenomeResponse) (t : TeamAggregate),
      (calculateDelta c t).summary.totalValueAddSkills =
        (calculateDelta c t).valueAddSkills.length) := by
  refine ⟨?_, fun c t => calculateDelta_summary_totalValueAdd c t⟩
  intro delta hlen
  have hne : delta.valueAddSkills.isEmpty = false := by
    cases hvs : delta.valueAddSkills with
    | nil => rw [hvs] at hlen; simp at hlen
    | cons x xs => rfl
  refine ⟨mkValueAddAlert delta.valueAddSkills delta.valueAddLanguages, ?_,
    mkValueAddAlert_skills _ _, mkValueAddAlert_languages _ _⟩
  rw [generateAlerts_valueAddAlert, hne, Bool.false_and, if_neg]
  exact Bool.false_ne_true

/-- C8 witness: a delta with eleven value-add skills, on which the alert
exposes ten while the summary records eleven. -/
theorem claim_C8_witness :
    10 < c8Delta.valueAddSkills.length ∧
    ∃ a, (generateAlerts c8Delta).valueAddAlert = some a ∧
      a.skills = c8Delta.valueAddSkills.take 10 ∧ a.skills.length = 10 ∧
      a.languages = c8Delta.valueAddLanguages ∧
      c8Delta.summary.totalValueAddSkills = 11 := by
  refine ⟨by decide, ?_⟩
  obtain ⟨a, ha, hs, hl⟩ := claim_C8.1 c8Delta (by decide)
  refine ⟨a, ha, hs, ?_, hl, by decide⟩
  rw [hs]
  decide

/-- C9: output orderings — the aggregated skill list is sorted by count
descending and is stable (elements of any fixed count keep the order of the
pre-sort, first-encounter materialisation, whose name order is exactly
first-seen deduplication of the scanned observation names); redundant skills
are sorted by coverage descending; value-add skills by coverage ascending;
and value-add languages keep the candidate declaration order (the list is the
order-preserving filter of the candidate language list). -/
theorem claim_C9 (gs : List GenomeResponse) (c : GenomeResponse) (t : TeamAggregate) :
    ((buildTeamAggregate gs).skills).Pairwise (fun x y => y.count ≤ x.count) ∧
    (∀ n : ℕ, (buildTeamAggregate gs).skills.filter (fun s => decide (s.count = n)) =
      (unsortedSkills gs).filter (fun s => decide (s.count = n))) ∧
    (unsortedSkills gs).map SkillFrequency.skillName = dedupKeys (allSkillNames gs) ∧
    ((calculateDelta c t).redundantSkills).Pairwise
      (fun x y => y.teamCoverage ≤ x.teamCoverage) ∧
    ((calculateDelta c t).valueAddSkills).Pairwise
      (fun x y => x.teamCoverage ≤ y.teamCoverage) ∧
    (calculateDelta c t).valueAddLanguages =
      ((c.languages.getD []).filter
        (fun l => decide (langCoverage t l.code < VALUE_ADD_THRESHOLD))).map
        (fun l => ⟨l.code, l.language, orUnknown l.fluency, langCoverage t l.code,
          true⟩) := by
  refine ⟨?_, ?_, ?_, redundantSkills_sorted c t, valueAddSkills_sorted c t, ?_⟩
  · rw [buildTeamAggregate_skills]
    have tot : ∀ a b : SkillFrequency, decide (a.count ≤ b.count) = false →
        decide (b.count ≤ a.count) = true := fun a b hab =>
      decide_eq_true (Nat.le_of_lt (Nat.lt_of_not_le (of_decide_eq_false hab)))
    have htrans : ∀ a b c : SkillFrequency, decide (b.count ≤ a.count) = true →
        decide (c.count ≤ b.count) = true → decide (c.count ≤ a.count) = true :=
      fun a b c h1 h2 =>
      decide_eq_true (Nat.le_trans (of_decide_eq_true h2) (of_decide_eq_true h1))
    exact (pairwise_stableSort _ tot htrans _).imp fun hd => of_decide_eq_true hd
  · intro n
    rw [buildTeamAggregate_skills]
    exact filter_stableSort_count (unsortedSkills gs) n
  · rw [unsortedSkills, List.map_map, ← buildSkillMap_keys gs]
    rfl
  · rw [calculateDelta_valueAddLanguages]
    induction c.languages.getD [] with
    | nil => rfl
    | cons l rest ih =>
        rw [List.filterMap_cons, List.filter_cons]
        by_cases h : langCoverage t l.code < VALUE_ADD_THRESHOLD
        · rw [if_pos h, if_pos (decide_eq_true h), List.map_cons, ih]
        · rw [if_neg h, if_neg (by rw [decide_eq_false h]; exact Bool.false_ne_true), ih]

/-- C10: aggregating an empty profile collection yields
`{totalMembers: 0, skills: [], languages: {}}`, and a delta computed against
that empty aggregate never divides by zero: every candidate skill gets team
coverage 0 (hence is value-add, never redundant) and every candidate
language gets team coverage 0, with nothing dropped from either list. -/
theorem claim_C10 :
    buildTeamAggregate [] = ⟨0, [], []⟩ ∧
    (∀ c : GenomeResponse,
      (calculateDelta c (buildTeamAggregate [])).redundantSkills = [] ∧
      (calculateDelta c (buildTeamAggregate [])).valueAddSkills.length =
        (c.strengths.getD []).length ∧
      (∀ sd ∈ (calculateDelta c (buildTeamAggregate [])).valueAddSkills,
        sd.teamCoverage = 0 ∧ sd.isValueAdd = true) ∧
      (calculateDelta c (buildTeamAggregate [])).valueAddLanguages.length =
        (c.languages.getD []).length ∧
      (∀ ld ∈ (calculateDelta c (buildTeamAggregate [])).valueAddLanguages,
        ld.teamCoverage = 0)) := by
  have hmk : ∀ s : Strength, mkSkillDelta (buildTeamAggregate []) s =
      ⟨s.name, orUnknown s.proficiency, 0, [], false, true⟩ := fun s => rfl
  have hlc : ∀ code : String, langCoverage (buildTeamAggregate []) code = 0 :=
    fun code => rfl
  have hf : ∀ l : LanguageItem,
      (if langCoverage (buildTeamAggregate []) l.code < VALUE_ADD_THRESHOLD then
        some (⟨l.code, l.language, orUnknown l.fluency,
          langCoverage (buildTeamAggregate []) l.code, true⟩ : LanguageDelta)
      else none) = some ⟨l.code, l.language, orUnknown l.fluency, 0, true⟩ := by
    intro l
    rw [hlc l.code, if_pos (by norm_num [VALUE_ADD_THRESHOLD])]
  have hfilV : ∀ c : GenomeResponse,
      ((c.strengths.getD []).map (mkSkillDelta (buildTeamAggregate []))).filter
          (fun d => !d.isRedundant && d.isValueAdd) =
        (c.strengths.getD []).map (mkSkillDelta (buildTeamAggregate [])) := by
    intro c
    rw [List.filter_eq_self]
    intro d hd
    obtain ⟨s, _, rfl⟩ := List.mem_map.mp hd
    rw [hmk s]
    rfl
  refine ⟨rfl, ?_⟩
  intro c
  refine ⟨?_, ?_, ?_, ?_, ?_⟩
  · rw [calculateDelta_redundantSkills]
    have hfilR : ((c.strengths.getD []).map
        (mkSkillDelta (buildTeamAggregate []))).filter (·.isRedundant) = [] := by
      rw [List.filter_eq_nil_iff]
      intro d hd
      obtain ⟨s, _, rfl⟩ := List.mem_map.mp hd
      rw [hmk s]
      simp
    rw [hfilR]
    rfl
  · rw [calculateDelta_valueAddSkills, length_stableSort, hfilV, List.length_map]
  · intro sd hsd
    rw [calculateDelta_valueAddSkills, mem_stableSort, hfilV] at hsd
    obtain ⟨s, _, rfl⟩ := List.mem_map.mp hsd
    rw [hmk s]
    exact ⟨rfl, rfl⟩
  · rw [calculateDelta_valueAddLanguages]
    apply length_filterMap_of_isSome
    intro l _
    rw [hf l]
    rfl
  · intro ld hld
    rw [calculateDelta_valueAddLanguages] at hld
    obtain ⟨l, _, hfl⟩ := List.mem_filterMap.mp hld
    rw [hf l] at hfl
    have := Option.some.inj hfl
    rw [← this]

/-- C10 witness: a candidate with one skill and one language against the
empty aggregate. -/
theorem claim_C10_witness :
    (calculateDelta c10Cand (buildTeamAggregate [])).redundantSkills = [] ∧
    (calculateDelta c10Cand (buildTeamAggregate [])).valueAddSkills.length = 1 ∧
    (∃ sd ∈ (calculateDelta c10Cand (buildTeamAggregate [])).valueAddSkills,
      sd.teamCoverage = 0 ∧ sd.isValueAdd = true) ∧
    (∃ ld ∈ (calculateDelta c10Cand (buildTeamAggregate [])).valueAddLanguages,
      ld.teamCoverage = 0) := by
  have h := claim_C10.2 c10Cand
  refine ⟨h.1, by rw [h.2.1]; rfl, ?_, ?_⟩
  · exact ⟨⟨"Haskell", "expert", 0, [], false, true⟩, by decide,
      h.2.2.1 _ (by decide)⟩
  · exact ⟨⟨"fr", "French", "basic", 0, true⟩, by decide,
      h.2.2.2.2 _ (by decide)⟩

theorem mkValueAddAlert_message (vs : List SkillDelta) (vl : List LanguageDelta) :
    (mkValueAddAlert vs vl).message = "Strong Hire: " ++
      (if (valueAddAdditions vs vl).isEmpty then "" else
        "This candidate brings " ++ String.intercalate " and " (valueAddAdditions vs vl) ++
          "—skills your current team " ++ lacksWord vs ++ ".") := rfl

theorem valueAddAdditions_isEmpty (vs : List SkillDelta) (vl : List LanguageDelta) :
    (valueAddAdditions vs vl).isEmpty = (vs.isEmpty && vl.isEmpty) := by
  cases vs with
  | nil =>
      cases vl with
      | nil => rfl
      | cons l lrest => rfl
  | cons v vrest =>
      cases vl with
      | nil => rfl
      | cons l lrest => rfl

theorem mkValueAddAlert_message_suffix (vs : List SkillDelta)
    (vl : List LanguageDelta) (hne : (vs.isEmpty && vl.isEmpty) = false) :
    ∃ p, (mkValueAddAlert vs vl).message =
      p ++ ("—skills your current team " ++ lacksWord vs ++ ".") := by
  rw [mkValueAddAlert_message, if_neg]
  · refine ⟨"Strong Hire: " ++ ("This candidate brings " ++
      String.intercalate " and " (valueAddAdditions vs vl)), ?_⟩
    simp [String.append_assoc]
  · rw [valueAddAdditions_isEmpty, hne]
    exact Bool.false_ne_true

theorem zero_mem_take10_iff (vs : List SkillDelta)
    (hnn : ∀ s ∈ vs, 0 ≤ s.teamCoverage)
    (hsorted : vs.Pairwise fun x y => x.teamCoverage ≤ y.teamCoverage) :
    (∃ s ∈ vs.take 10, s.teamCoverage = 0) ↔ ∃ s ∈ vs, s.teamCoverage = 0 := by
  constructor
  · rintro ⟨s, hs, h0⟩
    exact ⟨s, List.take_subset 10 vs hs, h0⟩
  · rintro ⟨z, hz, h0⟩
    cases vs with
    | nil => exact absurd hz (List.not_mem_nil z)
    | cons v vrest =>
        have hv0 : v.teamCoverage = 0 := by
          rcases List.mem_cons.mp hz with rfl | hz₂
          · exact h0
          · have h1 := (List.pairwise_cons.mp hsorted).1 z hz₂
            have h2 := hnn v (List.mem_cons_self _ _)
            rw [h0] at h1
            linarith
        exact ⟨v, by rw [List.take_succ_cons]; exact List.mem_cons_self _ _, hv0⟩

/-- C4: through the pipeline, a value-add alert message ends with
`—skills your current team completely lacks.` whenever one of its listed
(at most ten) skills has team coverage exactly 0, and otherwise ends with
`—skills your current team has limited coverage in.`. -/
theorem claim_C4 (gs : List GenomeResponse) (cand : GenomeResponse) (a : ValueAddAlert)
    (h : (generateAlerts (calculateDelta cand (buildTeamAggregate gs))).valueAddAlert =
      some a) :
    ((∃ s ∈ a.skills, s.teamCoverage = 0) →
      ∃ p, a.message = p ++ "—skills your current team completely lacks.") ∧
    ((∀ s ∈ a.skills, s.teamCoverage ≠ 0) →
      ∃ p, a.message = p ++ "—skills your current team has limited coverage in.") := by
  rw [generateAlerts_valueAddAlert] at h
  by_cases hemp : ((calculateDelta cand (buildTeamAggregate gs)).valueAddSkills.isEmpty &&
      (calculateDelta cand (buildTeamAggregate gs)).valueAddLanguages.isEmpty) = true
  · rw [if_pos hemp] at h
    exact Option.noConfusion h
  · have hemp' := Bool.not_eq_true _ ▸ hemp
    rw [if_neg hemp] at h
    have ha := (Option.some.inj h).symm
    subst ha
    have hemp₂ : ((calculateDelta cand (buildTeamAggregate gs)).valueAddSkills.isEmpty &&
        (calculateDelta cand (buildTeamAggregate gs)).valueAddLanguages.isEmpty) = false :=
      Bool.eq_false_iff.mpr hemp
    obtain ⟨p, hp⟩ := mkValueAddAlert_message_suffix _ _ hemp₂
    have hskills := mkValueAddAlert_skills
      (calculateDelta cand (buildTeamAggregate gs)).valueAddSkills
      (calculateDelta cand (buildTeamAggregate gs)).valueAddLanguages
    constructor
    · rintro ⟨s, hs, h0⟩
      rw [hskills] at hs
      have hany : ((calculateDelta cand (buildTeamAggregate gs)).valueAddSkills.any
          fun s => decide (s.teamCoverage = 0)) = true :=
        List.any_eq_true.mpr ⟨s, List.take_subset 10 _ hs, decide_eq_true h0⟩
      have hw : lacksWord (calculateDelta cand (buildTeamAggregate gs)).valueAddSkills =
          "completely lacks" := by
        unfold lacksWord
        rw [if_pos hany]
      refine ⟨p, ?_⟩
      rw [hp, hw]
      rfl
    · intro hall
      cases hany : ((calculateDelta cand (buildTeamAggregate gs)).valueAddSkills.any
          fun s => decide (s.teamCoverage = 0)) with
      | true =>
          obtain ⟨z, hz, hz0⟩ := List.any_eq_true.mp hany
          have hz0' := of_decide_eq_true hz0
          have hiff := zero_mem_take10_iff
            (calculateDelta cand (buildTeamAggregate gs)).valueAddSkills
            (fun s hs => pipeline_valueAdd_nonneg gs cand s hs)
            (valueAddSkills_sorted cand (buildTeamAggregate gs))
          obtain ⟨s, hs, hs0⟩ := hiff.mpr ⟨z, hz, hz0'⟩
          rw [← hskills] at hs
          exact absurd hs0 (hall s hs)
      | false =>
          have hw : lacksWord
              (calculateDelta cand (buildTeamAggregate gs)).valueAddSkills =
              "has limited coverage in" := by
            unfold lacksWord
            rw [if_neg (hany ▸ Bool.false_ne_true)]
          refine ⟨p, ?_⟩
          rw [hp, hw]
          rfl

/-- C4 witness: five team members without Rust and a Rust candidate produce a
value-add alert with coverage 0 whose message ends with
`completely lacks.`. -/
theorem claim_C4_witness :
    ∃ a, (generateAlerts
        (calculateDelta rustCand (buildTeamAggregate rustTeam))).valueAddAlert =
          some a ∧
      (∃ s ∈ a.skills, s.teamCoverage = 0) ∧
      ∃ p, a.message = p ++ "—skills your current team completely lacks." := by
  refine ⟨mkValueAddAlert
    (calculateDelta rustCand (buildTeamAggregate rustTeam)).valueAddSkills
    (calculateDelta rustCand (buildTeamAggregate rustTeam)).valueAddLanguages,
    by decide, ?_⟩
  have hz : ∃ s ∈ (mkValueAddAlert
      (calculateDelta rustCand (buildTeamAggregate rustTeam)).valueAddSkills
      (calculateDelta rustCand (buildTeamAggregate rustTeam)).valueAddLanguages).skills,
      s.teamCoverage = 0 :=
    ⟨⟨"Rust", "expert", 0, [], false, true⟩, by decide, by decide⟩
  exact ⟨hz, (claim_C4 rustTeam rustCand _ (by decide)).1 hz⟩
